import Mathlib

/-!
Shallow embedding of `src/index.ts` (a Y Combinator company-listing scraper)
and proofs about its specification claims.

The source is a single TypeScript file with:
* `main` — orchestrator: dedups the listing stream into `companyList`,
  then, per company, fetches founder data and streams JSON output;
* `getCompanies` — an async generator driving a scroll loop;
* `getFoundersDataWithRetries` — a bounded-retry detail fetcher.

Pure aspects of each function are translated to executable Lean
definitions below; browser effects are abstracted as explicit inputs
(height readings, rendered items, detail cards, per-attempt outcomes).
-/

/-- `interface Founder { name: string; links: string[] }`. -/
structure Founder where
  name : String
  links : List String
deriving DecidableEq, Repr

/-- `interface Company { name; location; link; founders }`. -/
structure Company where
  name : String
  location : String
  link : String
  founders : List Founder
deriving DecidableEq, Repr

/-- A raw listing record as yielded by `getCompanies`:
`{ name: string; location: string; link: string }`. -/
structure ListingRecord where
  name : String
  location : String
  link : String
deriving DecidableEq, Repr

/-! ## Deduplicating collector (main, lines 36–48) -/

/-- The Identity Key of a raw listing record: the (name, location, link) triple. -/
def keyOf (r : ListingRecord) : String × String × String :=
  (r.name, r.location, r.link)

/-- The Identity Key of a collected company record. -/
def keyC (c : Company) : String × String × String :=
  (c.name, c.location, c.link)

/-- `{ ...company, founders: [] }` — wrap a raw record with an empty founders array. -/
def mkCompany (r : ListingRecord) : Company :=
  ⟨r.name, r.location, r.link, []⟩

/-- `Array.from(companyList).find(c => c.name === name && c.location === location
&& c.link === link)` as a Boolean membership test. -/
def hasKey (acc : List Company) (r : ListingRecord) : Bool :=
  acc.any fun c => c.name == r.name && c.location == r.location && c.link == r.link

/-- One step of main's dedup loop: insert the record unless an entry with the same
Identity Key already exists. -/
def insertCompany (acc : List Company) (r : ListingRecord) : List Company :=
  if hasKey acc r then acc else acc ++ [mkCompany r]

/-- main's `for await (const company of getCompanies(page))` loop folded over the
emission sequence, starting from the given accumulator. -/
def collectFrom (acc : List Company) (rs : List ListingRecord) : List Company :=
  rs.foldl insertCompany acc

/-- The canonical company list built from the raw emission sequence
(insertion order preserved, first occurrence retained). -/
def collectCompanies (rs : List ListingRecord) : List Company :=
  collectFrom [] rs

/-! ## Listing traversal loop (getCompanies, lines 91–127) -/

/-- The `do … while (currentHeight > previousHeight)` loop of `getCompanies`,
counting content-collection iterations.  The first argument is the value of
`currentHeight` at loop entry (`0` initially); the list holds the successive
values returned by the scroll `page.evaluate` call, one consumed per body run.
Each body run collects content once, then records the next height; the loop
continues only while the new height is strictly greater than the previous one. -/
def getCompaniesLoopCount : Nat → List Nat → Nat
  | _, [] => 0
  | currentHeight, h :: rest =>
    1 + (if currentHeight < h then getCompaniesLoopCount h rest else 0)

/-- A rendered listing item: the name element's innerText (if the element exists),
the location element's innerText (if it exists), and `getAttribute('href')`
(null when absent). -/
structure RawItem where
  nameText : Option String
  locationText : Option String
  href : Option String
deriving DecidableEq, Repr

/-- JavaScript truthiness of a `string | undefined | null` value:
`undefined`/`null` and the empty string are falsy. -/
def truthyStr : Option String → Bool
  | none => false
  | some s => s != ""

/-- The template literal `\`https://ycombinator.com${route}\``: a `null` route is
rendered as the text "null". -/
def renderedRoute : Option String → String
  | some r => r
  | none => "null"

/-- `const link = \`https://ycombinator.com${route}\``. -/
def linkOf (it : RawItem) : String :=
  "https://ycombinator.com" ++ renderedRoute it.href

/-- The per-snapshot item loop of `getCompanies` (lines 103–120): for each item,
extract name, location and link, and yield iff `name && location && link`. -/
def yieldCompanies (items : List RawItem) : List ListingRecord :=
  items.filterMap fun it =>
    if truthyStr it.nameText && truthyStr it.locationText && (linkOf it != "") then
      some ⟨it.nameText.getD "", it.locationText.getD "", linkOf it⟩
    else none

/-! ## Founder extraction (getFoundersDataWithRetries, lines 153–170) -/

/-- A rendered `.ycdc-card` detail card: the `.font-bold` element's textContent
(none when the element is missing or textContent is null), and the `.space-x-2`
container's anchor hrefs (none when the container itself is missing). -/
structure Card where
  nameText : Option String
  socials : Option (List (Option String))
deriving DecidableEq, Repr

/-- The per-card body of the founder loop: a founder is pushed iff
`linkElements && founderName` — i.e. the `.space-x-2` lookup succeeded
(an empty anchor array is truthy) and the name is truthy; each anchor
contributes its href iff the href is truthy. -/
def personOf (card : Card) : Option Founder :=
  match card.socials with
  | none => none
  | some hrefs =>
    if truthyStr card.nameText then
      some ⟨card.nameText.getD "",
            hrefs.filterMap fun h => if truthyStr h then some (h.getD "") else none⟩
    else none

/-- The whole founder-extraction loop over the detail cards of one attempt. -/
def extractFounders (cards : List Card) : List Founder :=
  cards.filterMap personOf

/-! ## One fetch attempt and its browsing sub-context (lines 138–175) -/

/-- The external outcomes of the driver calls made by one attempt of
`getFoundersDataWithRetries`: whether `browser.newPage()`, `goto` and
`waitForSelector` succeed, and the detail cards found on success. -/
structure AttemptEnv where
  newPageOk : Bool
  gotoOk : Bool
  waitOk : Bool
  cards : List Card
deriving DecidableEq, Repr

/-- What one attempt produced: the outcome seen by the retry loop (an exception
or the extracted founder list), and how many sub-context pages the attempt
opened and closed. -/
structure AttemptResult where
  outcome : Except Unit (List Founder)
  pagesOpened : Nat
  pagesClosed : Nat
deriving Repr

/-- One pass of the `try` block: `newPage`, `goto`, `waitForSelector`, the
extraction loop, then `newPage.close()` — any exception propagates to the
`catch` without further cleanup, since the block has no `finally` and the
`catch` does not close the page. -/
def runAttempt (env : AttemptEnv) : AttemptResult :=
  if !env.newPageOk then ⟨.error (), 0, 0⟩
  else if !env.gotoOk then ⟨.error (), 1, 0⟩
  else if !env.waitOk then ⟨.error (), 1, 0⟩
  else ⟨.ok (extractFounders env.cards), 1, 1⟩

/-! ## The retry loop (getFoundersDataWithRetries, lines 130–188) -/

/-- The `while (retries < maxRetries)` loop.  `attempt i` is the outcome of the
`i`-th attempt (0-based).  Returns the value `getFoundersDataWithRetries`
returns, paired with the number of attempts that were started.  On a successful
attempt the loop returns `founderList.length > 0 ? founderList : null`
immediately; on an exception `retries` increments and the loop retries.
`maxRetries` is a JavaScript number, modelled as an Int so that non-positive
bounds behave as in the source. -/
def retryAux (attempt : Nat → Except Unit (List Founder))
    (maxRetries retries : Int) : Option (List Founder) × Nat :=
  if retries < maxRetries then
    match attempt retries.toNat with
    | .ok founderList =>
      (if founderList.length > 0 then some founderList else none, retries.toNat + 1)
    | .error _ => retryAux attempt maxRetries (retries + 1)
  else (none, retries.toNat)
termination_by (maxRetries - retries).toNat
decreasing_by omega

/-- `getFoundersDataWithRetries` with the browser abstracted into the sequence of
attempt outcomes; `retries` starts at 0. -/
def getFoundersDataWithRetries (attempt : Nat → Except Unit (List Founder))
    (maxRetries : Int) : Option (List Founder) × Nat :=
  retryAux attempt maxRetries 0

/-- The default of the `maxRetries: number = 3` parameter. -/
def defaultMaxRetries : Int := 3

/-- The attempt-outcome sequence induced by a sequence of attempt environments. -/
def attemptOf (envs : Nat → AttemptEnv) (i : Nat) : Except Unit (List Founder) :=
  (runAttempt (envs i)).outcome

/-- Total number of sub-context pages opened by the first `n` attempts. -/
def totalOpens (envs : Nat → AttemptEnv) : Nat → Nat
  | 0 => 0
  | n + 1 => totalOpens envs n + (runAttempt (envs n)).pagesOpened

/-! ## Streaming enrichment writer (main, lines 52–70) -/

/-- The records main serializes: for each company in `companyList`, if fetching
founder data yields a non-null list, set `company.founders` and keep the record;
a null result drops the record. -/
def enrichOutputs (fetch : String → Option (List Founder)) :
    List Company → List Company
  | [] => []
  | c :: rest =>
    match fetch c.link with
    | some fd => { c with founders := fd } :: enrichOutputs fetch rest
    | none => enrichOutputs fetch rest

/-! ## Lemmas about the deduplicating collector -/

lemma keyC_mkCompany (r : ListingRecord) : keyC (mkCompany r) = keyOf r := rfl

lemma eq_of_key_eq {a b : ListingRecord} (h : keyOf a = keyOf b) : a = b := by
  cases a
  cases b
  simp only [keyOf, Prod.mk.injEq] at h
  obtain ⟨h1, h2, h3⟩ := h
  subst h1
  subst h2
  subst h3
  rfl

lemma hasKey_iff (acc : List Company) (r : ListingRecord) :
    hasKey acc r = true ↔ keyOf r ∈ acc.map keyC := by
  unfold hasKey
  rw [List.any_eq_true]
  constructor
  · rintro ⟨c, hc, hb⟩
    simp only [Bool.and_eq_true, beq_iff_eq] at hb
    refine List.mem_map.2 ⟨c, hc, ?_⟩
    simp [keyC, keyOf, hb.1.1, hb.1.2, hb.2]
  · intro h
    rcases List.mem_map.1 h with ⟨c, hc, hk⟩
    have h1 : c.name = r.name ∧ c.location = r.location ∧ c.link = r.link := by
      simpa [keyC, keyOf, Prod.mk.injEq] using hk
    exact ⟨c, hc, by simp [h1.1, h1.2.1, h1.2.2]⟩

lemma collectFrom_cons (acc : List Company) (r : ListingRecord) (rs : List ListingRecord) :
    collectFrom acc (r :: rs) = collectFrom (insertCompany acc r) rs := rfl

lemma collectFrom_keys_toFinset (rs : List ListingRecord) :
    ∀ acc, ((collectFrom acc rs).map keyC).toFinset
      = (acc.map keyC).toFinset ∪ (rs.map keyOf).toFinset := by
  induction rs with
  | nil => intro acc; simp [collectFrom]
  | cons r rs ih =>
    intro acc
    rw [collectFrom_cons, ih]
    by_cases h : hasKey acc r
    · have hk : keyOf r ∈ acc.map keyC := (hasKey_iff _ _).1 h
      simp only [insertCompany, if_pos h, List.map_cons, List.toFinset_cons]
      ext x
      simp only [Finset.mem_union, Finset.mem_insert, List.mem_toFinset]
      constructor
      · rintro (h1 | h1)
        · exact Or.inl h1
        · exact Or.inr (Or.inr h1)
      · rintro (h1 | (rfl | h1))
        · exact Or.inl h1
        · exact Or.inl hk
        · exact Or.inr h1
    · simp only [insertCompany, if_neg h, List.map_append, List.toFinset_append,
        List.map_cons, List.toFinset_cons, List.map_nil, keyC_mkCompany]
      ext x
      simp only [Finset.mem_union, Finset.mem_insert, List.mem_toFinset, List.toFinset_nil,
        Finset.mem_insert, Finset.not_mem_empty, or_false]
      tauto

lemma collectFrom_keys_nodup (rs : List ListingRecord) :
    ∀ acc, (acc.map keyC).Nodup → ((collectFrom acc rs).map keyC).Nodup := by
  induction rs with
  | nil => intro acc h; simpa [collectFrom] using h
  | cons r rs ih =>
    intro acc h
    rw [collectFrom_cons]
    apply ih
    by_cases hk : hasKey acc r
    · simpa [insertCompany, hk] using h
    · have hmem : keyOf r ∉ acc.map keyC := fun hm => hk ((hasKey_iff _ _).2 hm)
      simp only [insertCompany, if_neg hk, List.map_append, List.map_cons, List.map_nil,
        keyC_mkCompany, List.nodup_append]
      refine ⟨h, by simp, ?_⟩
      intro x hx
      simp only [List.mem_cons, List.not_mem_nil, or_false]
      rintro rfl
      exact hmem hx

lemma mem_collectFrom (rs : List ListingRecord) :
    ∀ acc c, c ∈ collectFrom acc rs → c ∈ acc ∨ ∃ r ∈ rs, c = mkCompany r := by
  induction rs with
  | nil => intro acc c h; exact Or.inl (by simpa [collectFrom] using h)
  | cons r rs ih =>
    intro acc c h
    rw [collectFrom_cons] at h
    rcases ih _ c h with h1 | ⟨r', hr', rfl⟩
    · by_cases hk : hasKey acc r
      · left; simpa [insertCompany, hk] using h1
      · rcases (by simpa [insertCompany, hk, List.mem_append] using h1 :
          c ∈ acc ∨ c = mkCompany r) with h2 | h2
        · exact Or.inl h2
        · exact Or.inr ⟨r, by simp, h2⟩
    · exact Or.inr ⟨r', by simp [hr'], rfl⟩

lemma key_mem_collect (rs : List ListingRecord) (r : ListingRecord) (hr : r ∈ rs) :
    ∃ c ∈ collectCompanies rs, keyC c = keyOf r := by
  have hts := collectFrom_keys_toFinset rs []
  have hmem : keyOf r ∈ ((collectCompanies rs).map keyC).toFinset := by
    rw [collectCompanies, hts]
    simp only [List.map_nil, List.toFinset_nil, Finset.empty_union, List.mem_toFinset]
    exact List.mem_map.2 ⟨r, hr, rfl⟩
  rcases List.mem_map.1 (List.mem_toFinset.1 hmem) with ⟨c, hc, hk⟩
  exact ⟨c, hc, hk⟩

lemma collect_first_emission (rs : List ListingRecord) (c : Company)
    (hc : c ∈ collectCompanies rs) :
    rs.find? (fun r => keyOf r == keyC c) = some ⟨c.name, c.location, c.link⟩
    ∧ c.founders = [] := by
  rcases mem_collectFrom rs [] c hc with h | ⟨r, hr, rfl⟩
  · simp at h
  · refine ⟨?_, rfl⟩
    have hsome : (rs.find? (fun r' => keyOf r' == keyC (mkCompany r))).isSome := by
      rw [List.find?_isSome]
      exact ⟨r, hr, by simp [keyC_mkCompany]⟩
    rcases Option.isSome_iff_exists.1 hsome with ⟨r0, h0⟩
    have hp : keyOf r0 = keyC (mkCompany r) := by simpa using List.find?_some h0
    have hr0 : r0 = ⟨(mkCompany r).name, (mkCompany r).location, (mkCompany r).link⟩ :=
      eq_of_key_eq hp
    rw [h0, hr0]

/-- Claim C1: for every finite sequence of raw listing emissions, the collector's
canonical set has one record per distinct (name, location, link) triple — its
size is the number of distinct Identity Keys, each retained record's fields are
exactly those of the first emission of its key in emission order (with
`founders` still empty, so later duplicates are discarded, not merged), and
every emitted key is represented. -/
theorem C1_dedup_first_wins :
    ∀ rs : List ListingRecord,
      (collectCompanies rs).length = (rs.map keyOf).toFinset.card
      ∧ ((collectCompanies rs).map keyC).Nodup
      ∧ (∀ c ∈ collectCompanies rs,
           rs.find? (fun r => keyOf r == keyC c) = some ⟨c.name, c.location, c.link⟩
           ∧ c.founders = [])
      ∧ (∀ r ∈ rs, ∃ c ∈ collectCompanies rs, keyC c = keyOf r) := by
  intro rs
  have hnd : ((collectCompanies rs).map keyC).Nodup :=
    collectFrom_keys_nodup rs [] (by simp)
  refine ⟨?_, hnd, fun c hc => collect_first_emission rs c hc,
    fun r hr => key_mem_collect rs r hr⟩
  have h1 : ((collectCompanies rs).map keyC).toFinset = (rs.map keyOf).toFinset := by
    have := collectFrom_keys_toFinset rs []
    simpa [collectCompanies] using this
  calc (collectCompanies rs).length
      = ((collectCompanies rs).map keyC).length := by simp
    _ = ((collectCompanies rs).map keyC).toFinset.card :=
        (List.toFinset_card_of_nodup hnd).symm
    _ = (rs.map keyOf).toFinset.card := by rw [h1]

/-- The spec's end-to-end example emissions: an exact duplicate of A plus B. -/
def exampleEmissions : List ListingRecord :=
  [⟨"A", "LocX", "link1"⟩, ⟨"A", "LocX", "link1"⟩, ⟨"B", "LocY", "link2"⟩]

theorem C1_dedup_first_wins_witness :
    (collectCompanies exampleEmissions).length = (exampleEmissions.map keyOf).toFinset.card
    ∧ (exampleEmissions.find?
         (fun r => keyOf r == keyC (mkCompany ⟨"A", "LocX", "link1"⟩))
         = some ⟨"A", "LocX", "link1"⟩
       ∧ (mkCompany ⟨"A", "LocX", "link1"⟩).founders = []) :=
  ⟨(C1_dedup_first_wins exampleEmissions).1,
   (C1_dedup_first_wins exampleEmissions).2.2.1 _ (by decide)⟩

/-! ## The traversal loop count (claim C2) -/

/-- Claim C2 counterexample: with height readings [100, 250, 250] from the
initial height 0, the do-while loop performs 3 content-collection iterations,
not 2 as claimed — the body runs (and collects) once more before the
height comparison 250 > 250 fails. -/
theorem C2_traversal_counterexample :
    getCompaniesLoopCount 0 [100, 250, 250] ≠ 2
    ∧ getCompaniesLoopCount 0 [100, 250, 250] = 3 := by
  decide

/-- Claim C2 (amended): with height readings [100, 250, 250] the loop performs
exactly 3 content-collection iterations; in general, an iteration whose
recorded height is not strictly greater than the previous height is the last
one (the loop halts right after it). -/
theorem C2_traversal_three_iterations :
    getCompaniesLoopCount 0 [100, 250, 250] = 3
    ∧ (∀ cur h rest, h ≤ cur → getCompaniesLoopCount cur (h :: rest) = 1) := by
  refine ⟨by decide, ?_⟩
  intro cur h rest hle
  simp only [getCompaniesLoopCount]
  rw [if_neg (by omega)]

theorem C2_traversal_three_iterations_witness :
    getCompaniesLoopCount 0 [100, 250, 250] = 3
    ∧ getCompaniesLoopCount 250 [250] = 1 :=
  ⟨C2_traversal_three_iterations.1,
   C2_traversal_three_iterations.2 250 250 [] (by decide)⟩

/-! ## Item filtering during traversal (claim C6) -/

/-- Claim C6, evaluated at the failing input: an item whose href attribute is
null (missing link) is NOT skipped — the template literal renders the null
route as the text "null", so `link` is always truthy and the item is yielded
with link "https://ycombinator.comnull".  Items missing name or location are
skipped as claimed. -/
theorem C6_missing_link_not_skipped :
    yieldCompanies [⟨some "A", some "B", none⟩]
      = [⟨"A", "B", "https://ycombinator.comnull"⟩]
    ∧ (RawItem.mk (some "A") (some "B") none).href = none
    ∧ yieldCompanies [⟨some "A", none, some "/companies/x"⟩] = []
    ∧ yieldCompanies [⟨none, some "B", some "/companies/x"⟩] = [] := by
  decide

/-! ## Founder extraction per card (claim C7) -/

/-- Claim C7 counterexample: a detail card with a successfully extracted name
("Jo") but no `.space-x-2` links container yields NO person record — the code
requires the container lookup to succeed, so the person is dropped even though
the name was extracted. -/
theorem C7_missing_container_drops_person :
    truthyStr (Card.mk (some "Jo") none).nameText = true
    ∧ extractFounders [Card.mk (some "Jo") none] = [] := by
  decide

/-- Claim C7 (amended): a person is recorded iff both a truthy name was
extracted and the links-container lookup succeeded; a container with zero
anchors still records the person with an empty links list, and a person entry
is included only if a name was successfully extracted. -/
theorem C7_person_requires_name_and_container :
    (∀ (card : Card) hrefs, card.socials = some hrefs → truthyStr card.nameText = true →
        personOf card = some ⟨card.nameText.getD "",
          hrefs.filterMap fun h => if truthyStr h then some (h.getD "") else none⟩)
    ∧ (∀ card : Card, card.socials = some [] → truthyStr card.nameText = true →
        personOf card = some ⟨card.nameText.getD "", []⟩)
    ∧ (∀ card f, personOf card = some f →
        truthyStr card.nameText = true ∧ card.socials.isSome = true)
    ∧ extractFounders = fun cards => cards.filterMap personOf := by
  refine ⟨?_, ?_, ?_, rfl⟩
  · intro card hrefs hs ht
    simp [personOf, hs, ht]
  · intro card hs ht
    simp [personOf, hs, ht]
  · intro card f hpf
    cases hs : card.socials with
    | none => simp [personOf, hs] at hpf
    | some hrefs =>
      by_cases ht : truthyStr card.nameText
      · exact ⟨ht, by simp [hs]⟩
      · simp [personOf, hs, ht] at hpf

theorem C7_person_requires_name_and_container_witness :
    personOf (Card.mk (some "Jo") (some [])) = some ⟨"Jo", []⟩ :=
  C7_person_requires_name_and_container.2.1 (Card.mk (some "Jo") (some [])) rfl (by decide)

/-! ## Sub-context lifecycle of one attempt (claim C5) -/

/-- Claim C5 counterexample: an attempt whose navigation throws (newPage
succeeded, goto failed) opens one sub-context page and closes zero — the
`try` block has no `finally` and the `catch` performs no close, so the failure
path leaves the sub-context open. -/
theorem C5_context_leaked_on_failure :
    (runAttempt ⟨true, false, true, []⟩).pagesOpened = 1
    ∧ (runAttempt ⟨true, false, true, []⟩).pagesClosed = 0
    ∧ (runAttempt ⟨true, false, true, []⟩).pagesOpened
        ≠ (runAttempt ⟨true, false, true, []⟩).pagesClosed := by
  refine ⟨rfl, rfl, by decide⟩

/-- Claim C5 (amended): the attempt's sub-context is closed on the success path
only; on any failure path after the page was opened (exception during
navigation, waiting or extraction) the page is opened but never closed, and if
opening itself fails nothing is opened. -/
theorem C5_context_closed_on_success_only :
    (∀ (env : AttemptEnv) l, (runAttempt env).outcome = Except.ok l →
        (runAttempt env).pagesOpened = 1 ∧ (runAttempt env).pagesClosed = 1)
    ∧ (∀ env : AttemptEnv, env.newPageOk = true →
        (runAttempt env).outcome = Except.error () →
        (runAttempt env).pagesOpened = 1 ∧ (runAttempt env).pagesClosed = 0)
    ∧ (∀ env : AttemptEnv, env.newPageOk = false →
        (runAttempt env).pagesOpened = 0 ∧ (runAttempt env).pagesClosed = 0) := by
  refine ⟨?_, ?_, ?_⟩
  · rintro ⟨np, go, wa, cds⟩ l h
    cases np <;> cases go <;> cases wa <;> simp_all [runAttempt]
  · rintro ⟨np, go, wa, cds⟩ hnp h
    cases np <;> cases go <;> cases wa <;> simp_all [runAttempt]
  · rintro ⟨np, go, wa, cds⟩ hnp
    cases np <;> simp_all [runAttempt]

theorem C5_context_closed_on_success_only_witness :
    (runAttempt ⟨true, true, true, []⟩).pagesOpened = 1
    ∧ (runAttempt ⟨true, true, true, []⟩).pagesClosed = 1 :=
  C5_context_closed_on_success_only.1 ⟨true, true, true, []⟩ [] rfl

/-! ## Retry-loop lemmas (claims C3, C8, C10) -/

lemma retryAux_skip (attempt : Nat → Except Unit (List Founder)) (maxRetries : Int) :
    ∀ (n : Nat) (retries : Int), 0 ≤ retries → retries + n ≤ maxRetries →
      (∀ i : Nat, retries.toNat ≤ i → i < retries.toNat + n → attempt i = .error ()) →
      retryAux attempt maxRetries retries = retryAux attempt maxRetries (retries + n) := by
  intro n
  induction n with
  | zero => intro retries _ _ _; simp
  | succ n ih =>
    intro retries h0 hle herr
    have hlt : retries < maxRetries := by omega
    rw [retryAux, if_pos hlt]
    have hatt : attempt retries.toNat = .error () := herr _ le_rfl (by omega)
    rw [hatt]
    have ht1 : (retries + 1).toNat = retries.toNat + 1 := by omega
    have hrec := ih (retries + 1) (by omega) (by omega) ?herr2
    · rw [hrec]
      have harg : retries + 1 + (n : Int) = retries + ((n + 1 : Nat) : Int) := by
        push_cast
        ring
      rw [harg]
    case herr2 =>
      intro i hi1 hi2
      exact herr i (by omega) (by omega)

lemma retryAux_exhausted (attempt : Nat → Except Unit (List Founder)) (maxRetries : Int)
    (h : 0 ≤ maxRetries)
    (herr : ∀ i, i < maxRetries.toNat → attempt i = .error ()) :
    getFoundersDataWithRetries attempt maxRetries = (none, maxRetries.toNat) := by
  unfold getFoundersDataWithRetries
  have hskip := retryAux_skip attempt maxRetries maxRetries.toNat 0 le_rfl (by omega) ?h1
  · rw [hskip]
    have heq : (0 : Int) + (maxRetries.toNat : Int) = maxRetries := by omega
    rw [heq, retryAux, if_neg (by omega)]
  case h1 =>
    intro i hi1 hi2
    exact herr i (by omega)

/-- Claim C3: if every attempt raises, the fetcher makes exactly `maxRetries`
attempts (3 by default) and returns `none`; and the orchestrator's enrichment
loop continues with the remaining records after a record whose fetch returned
`none`. -/
theorem C3_retry_exhaustion :
    (∀ attempt (maxRetries : Int), 0 ≤ maxRetries →
        (∀ i, i < maxRetries.toNat → attempt i = Except.error ()) →
        getFoundersDataWithRetries attempt maxRetries = (none, maxRetries.toNat))
    ∧ (∀ attempt, (∀ i, i < 3 → attempt i = Except.error ()) →
        getFoundersDataWithRetries attempt defaultMaxRetries = (none, 3))
    ∧ (∀ (fetch : String → Option (List Founder)) (c : Company) rest,
        fetch c.link = none →
        enrichOutputs fetch (c :: rest) = enrichOutputs fetch rest) := by
  refine ⟨fun a m h he => retryAux_exhausted a m h he, ?_, ?_⟩
  · intro attempt h
    exact retryAux_exhausted attempt 3 (by omega) (fun i hi => h i hi)
  · intro fetch c rest h
    simp [enrichOutputs, h]

theorem C3_retry_exhaustion_witness :
    getFoundersDataWithRetries (fun _ => Except.error ()) defaultMaxRetries = (none, 3) :=
  C3_retry_exhaustion.2.1 (fun _ => Except.error ()) (fun _ _ => rfl)

/-- Claim C8: if the first attempt that does not raise completes its extraction
with zero person records, the fetcher's overall result is `none` — exactly the
result of exhausting all retries. -/
theorem C8_empty_extraction_absent :
    ∀ attempt (maxRetries : Int) (j : Nat), (j : Int) < maxRetries →
      (∀ i, i < j → attempt i = Except.error ()) →
      attempt j = Except.ok [] →
      (getFoundersDataWithRetries attempt maxRetries).1 = none := by
  intro attempt maxRetries j hj herr hok
  unfold getFoundersDataWithRetries
  have hskip := retryAux_skip attempt maxRetries j 0 le_rfl (by omega) ?h1
  · rw [hskip]
    have heq : (0 : Int) + (j : Int) = (j : Int) := by omega
    rw [heq, retryAux, if_pos hj]
    have ht : ((j : Int)).toNat = j := by omega
    rw [ht, hok]
    simp
  case h1 =>
    intro i hi1 hi2
    exact herr i (by omega)

theorem C8_empty_extraction_absent_witness :
    (getFoundersDataWithRetries (fun _ => Except.ok ([] : List Founder)) 3).1 = none :=
  C8_empty_extraction_absent (fun _ => Except.ok []) 3 0 (by decide)
    (fun i hi => absurd hi (Nat.not_lt_zero i)) rfl

/-- Claim C10: with a non-positive `maxRetries` the while-loop guard
`retries < maxRetries` fails immediately: no attempt is made, no sub-context
page is opened, and the result is `none`. -/
theorem C10_nonpositive_max_retries_no_attempt :
    ∀ (envs : Nat → AttemptEnv) (maxRetries : Int), maxRetries ≤ 0 →
      getFoundersDataWithRetries (attemptOf envs) maxRetries = (none, 0)
      ∧ totalOpens envs (getFoundersDataWithRetries (attemptOf envs) maxRetries).2 = 0 := by
  intro envs maxRetries h
  have h1 : getFoundersDataWithRetries (attemptOf envs) maxRetries = (none, 0) := by
    unfold getFoundersDataWithRetries
    rw [retryAux, if_neg (by omega)]
    rfl
  exact ⟨h1, by rw [h1]; rfl⟩

theorem C10_nonpositive_max_retries_no_attempt_witness :
    getFoundersDataWithRetries (attemptOf fun _ => ⟨true, true, true, []⟩) 0 = (none, 0)
    ∧ totalOpens (fun _ => ⟨true, true, true, []⟩)
        (getFoundersDataWithRetries (attemptOf fun _ => ⟨true, true, true, []⟩) 0).2 = 0 :=
  C10_nonpositive_max_retries_no_attempt (fun _ => ⟨true, true, true, []⟩) 0 (by decide)

/-! ## Writer lemmas (claim C4) -/

lemma enrichOutputs_eq_filterMap (fetch : String → Option (List Founder)) :
    ∀ cs, enrichOutputs fetch cs
      = cs.filterMap fun c => (fetch c.link).map fun fd => { c with founders := fd } := by
  intro cs
  induction cs with
  | nil => rfl
  | cons c rest ih =>
    cases h : fetch c.link <;> simp [enrichOutputs, h, ih, List.filterMap_cons]

lemma enrichOutputs_length_le (fetch : String → Option (List Founder)) (cs : List Company) :
    (enrichOutputs fetch cs).length ≤ cs.length := by
  rw [enrichOutputs_eq_filterMap]
  exact List.length_filterMap_le _ _

lemma keyC_setFounders (c : Company) (fd : List Founder) :
    keyC { c with founders := fd } = keyC c := rfl

/-- Claim C4: the writer keeps exactly the records whose fetch returned a
non-`none` founder list (with `founders` set to that list), drops records whose
fetch returned `none` entirely (no record with that Identity Key is written,
given the canonical set's keys are distinct), and hence writes strictly fewer
records than the canonical set whenever some enrichment fails. -/
theorem C4_drop_on_failure :
    (∀ (fetch : String → Option (List Founder)) cs,
        enrichOutputs fetch cs
          = cs.filterMap fun c => (fetch c.link).map fun fd => { c with founders := fd })
    ∧ (∀ (fetch : String → Option (List Founder)) cs (c : Company) fd,
        c ∈ cs → fetch c.link = some fd →
        { c with founders := fd } ∈ enrichOutputs fetch cs)
    ∧ (∀ (fetch : String → Option (List Founder)) cs (c : Company),
        (cs.map keyC).Nodup → c ∈ cs → fetch c.link = none →
        ∀ w ∈ enrichOutputs fetch cs, keyC w ≠ keyC c)
    ∧ (∀ (fetch : String → Option (List Founder)) cs,
        (∃ c ∈ cs, fetch c.link = none) →
        (enrichOutputs fetch cs).length < cs.length) := by
  refine ⟨fun fetch cs => enrichOutputs_eq_filterMap fetch cs, ?_, ?_, ?_⟩
  · intro fetch cs c fd hc hf
    rw [enrichOutputs_eq_filterMap]
    exact List.mem_filterMap.2 ⟨c, hc, by simp [hf]⟩
  · intro fetch cs c hnd hc hf w hw heq
    rw [enrichOutputs_eq_filterMap] at hw
    rcases List.mem_filterMap.1 hw with ⟨c', hc', hsome⟩
    cases hcase : fetch c'.link with
    | none => simp [hcase] at hsome
    | some fd' =>
      simp only [hcase, Option.map_some'] at hsome
      have hw2 : { c' with founders := fd' } = w := Option.some.inj hsome
      have hkw : keyC w = keyC c' := by rw [← hw2]; rfl
      have hcc : c' = c := List.inj_on_of_nodup_map hnd hc' hc (by rw [← hkw, heq])
      rw [hcc] at hcase
      rw [hcase] at hf
      exact Option.noConfusion hf
  · intro fetch cs h
    induction cs with
    | nil => rcases h with ⟨c, hc, _⟩; simp at hc
    | cons c rest ih =>
      rcases h with ⟨c', hc', hf⟩
      rcases List.mem_cons.1 hc' with rfl | hmem
      · simp only [enrichOutputs, hf, List.length_cons]
        have := enrichOutputs_length_le fetch rest
        omega
      · cases hcase : fetch c.link with
        | none =>
          simp only [enrichOutputs, hcase, List.length_cons]
          have := enrichOutputs_length_le fetch rest
          omega
        | some fd =>
          simp only [enrichOutputs, hcase, List.length_cons]
          have := ih ⟨c', hmem, hf⟩
          omega

/-- The canonical record of the spec's end-to-end example. -/
def exampleCompanyA : Company := ⟨"A", "LocX", "link1", []⟩

theorem C4_drop_on_failure_witness :
    { exampleCompanyA with founders := [⟨"Jo", ["https://x.com/jo"]⟩] }
        ∈ enrichOutputs (fun _ => some [⟨"Jo", ["https://x.com/jo"]⟩]) [exampleCompanyA]
    ∧ (enrichOutputs (fun _ => none) [exampleCompanyA]).length < [exampleCompanyA].length :=
  ⟨C4_drop_on_failure.2.1 (fun _ => some [⟨"Jo", ["https://x.com/jo"]⟩])
      [exampleCompanyA] exampleCompanyA [⟨"Jo", ["https://x.com/jo"]⟩] (by simp) rfl,
   C4_drop_on_failure.2.2.2 (fun _ => none) [exampleCompanyA]
      ⟨exampleCompanyA, by simp, rfl⟩⟩

/-! ## The output byte stream (main, lines 52–70)

`main` writes `"[\n"`, then for each successfully enriched company
`JSON.stringify(company) + ",\n"`, then `"]"`.  `JSON.stringify` serializes the
company object with its keys in insertion order (name, location, link,
founders), arrays as comma-separated lists without a trailing comma, and
strings quoted with ECMA-262 QuoteJSONString escaping. -/

/-- Concatenation of the byte chunks produced per element of a list. -/
def flatAll {α β : Type} (f : α → List β) : List α → List β
  | [] => []
  | a :: l => f a ++ flatAll f l

/-- Lowercase hexadecimal digit, as used by QuoteJSONString's UnicodeEscape:
0–9 map to '0'–'9' and 10–15 to 'a'–'f'. -/
def hexDig (n : Nat) : Char :=
  if n < 10 then Char.ofNat (48 + n) else Char.ofNat (87 + n)

/-- QuoteJSONString escaping of one character: quote and backslash get a
backslash escape, the named control characters get their short escapes, other
control characters get a `\u00xx` escape, everything else is emitted verbatim. -/
def escChar (c : Char) : List Char :=
  if c = '"' then ['\\', '"']
  else if c = '\\' then ['\\', '\\']
  else if c = Char.ofNat 8 then ['\\', 'b']
  else if c = Char.ofNat 9 then ['\\', 't']
  else if c = Char.ofNat 10 then ['\\', 'n']
  else if c = Char.ofNat 12 then ['\\', 'f']
  else if c = Char.ofNat 13 then ['\\', 'r']
  else if c.toNat < 32 then
    ['\\', 'u', '0', '0', hexDig (c.toNat / 16), hexDig (c.toNat % 16)]
  else [c]

/-- QuoteJSONString escaping of a whole string's characters. -/
def escape (s : List Char) : List Char := flatAll escChar s

/-- A serialized JSON string literal. -/
def serStr (s : List Char) : List Char := '"' :: (escape s ++ ['"'])

/-- A serialized object key followed by a colon (our keys need no escaping). -/
def serKey (k : List Char) : List Char := '"' :: (k ++ ['"', ':'])

/-- The remaining members of a serialized object: `,"key":value` chunks. -/
def serMembersTail (ms : List (List Char × List Char)) : List Char :=
  flatAll (fun m => ',' :: '"' :: (m.1 ++ '"' :: ':' :: m.2)) ms

/-- The part of a serialized array after the opening bracket:
comma-separated elements and the closing bracket, no trailing comma. -/
def arrBody : List (List Char) → List Char
  | [] => [']']
  | p :: ps => p ++ (flatAll (fun q => ',' :: q) ps ++ [']'])

/-- `JSON.stringify` of a founder's links array. -/
def serLinks (ls : List String) : List Char :=
  '[' :: arrBody (ls.map fun l => serStr l.data)

/-- `JSON.stringify` of one founder object: keys name, links in order. -/
def serFounder (f : Founder) : List Char :=
  '{' :: (serKey ['n', 'a', 'm', 'e'] ++ (serStr f.name.data ++
    (serMembersTail [(['l', 'i', 'n', 'k', 's'], serLinks f.links)] ++ ['}'])))

/-- `JSON.stringify` of the founders array. -/
def serFounders (fs : List Founder) : List Char :=
  '[' :: arrBody (fs.map serFounder)

/-- `JSON.stringify(company)`: keys name, location, link, founders in order. -/
def serCompany (c : Company) : List Char :=
  '{' :: (serKey ['n', 'a', 'm', 'e'] ++ (serStr c.name.data ++
    (serMembersTail
      [(['l', 'o', 'c', 'a', 't', 'i', 'o', 'n'], serStr c.location.data),
       (['l', 'i', 'n', 'k'], serStr c.link.data),
       (['f', 'o', 'u', 'n', 'd', 'e', 'r', 's'], serFounders c.founders)] ++ ['}'])))

/-- The writes performed inside main's enrichment loop:
`stream.write(JSON.stringify(company) + ',\n')` per successful fetch. -/
def writesLoop (fetch : String → Option (List Founder)) : List Company → List Char
  | [] => []
  | c :: rest =>
    match fetch c.link with
    | some fd => serCompany { c with founders := fd } ++ (',' :: '\n' :: writesLoop fetch rest)
    | none => writesLoop fetch rest

/-- The full byte stream of the output file: `stream.write('[\n')`, the
enrichment-loop writes, then `stream.write(']')`. -/
def outputChars (fetch : String → Option (List Founder)) (cs : List Company) : List Char :=
  '[' :: '\n' :: (writesLoop fetch cs ++ [']'])

/-! ## A strict JSON (RFC 8259) recognizer

To settle whether the output stream is strict-JSON-valid we embed a
recursive-descent parser for the full JSON grammar: values are null, true,
false, numbers, strings (with escape sequences, no raw control characters),
arrays and objects; insignificant whitespace is space, tab, line feed and
carriage return; a document is one value surrounded by whitespace. -/

/-- Parsed JSON values (numbers kept as their lexeme). -/
inductive Json where
  | null
  | bool (b : Bool)
  | num (lexeme : List Char)
  | str (s : List Char)
  | arr (elems : List Json)
  | obj (members : List (List Char × Json))

/-- JSON insignificant whitespace. -/
def isWs (c : Char) : Bool := c == ' ' || c == '\t' || c == '\n' || c == '\r'

/-- Drop leading insignificant whitespace. -/
def skipWs : List Char → List Char
  | [] => []
  | c :: r => if isWs c then skipWs r else c :: r

/-- An ASCII decimal digit. -/
def jsonDigit (c : Char) : Bool := 48 ≤ c.toNat && c.toNat ≤ 57

/-- An ASCII hexadecimal digit. -/
def isHex (c : Char) : Bool :=
  (48 ≤ c.toNat && c.toNat ≤ 57) || (97 ≤ c.toNat && c.toNat ≤ 102)
    || (65 ≤ c.toNat && c.toNat ≤ 70)

/-- Numeric value of a hexadecimal digit. -/
def hexVal (c : Char) : Nat :=
  if c.toNat ≤ 57 then c.toNat - 48
  else if c.toNat ≤ 70 then c.toNat - 55
  else c.toNat - 87

/-- The character denoted by a `\uXXXX` escape. -/
def decodeHex (a b c d : Char) : Char :=
  Char.ofNat (((hexVal a * 16 + hexVal b) * 16 + hexVal c) * 16 + hexVal d)

/-- The single-character escape sequences of JSON strings. -/
def escMap (e : Char) : Option Char :=
  if e = '"' then some '"'
  else if e = '\\' then some '\\'
  else if e = '/' then some '/'
  else if e = 'b' then some (Char.ofNat 8)
  else if e = 'f' then some (Char.ofNat 12)
  else if e = 'n' then some (Char.ofNat 10)
  else if e = 'r' then some (Char.ofNat 13)
  else if e = 't' then some (Char.ofNat 9)
  else none

/-- Prepend an unescaped character to the parse of the rest of a string body. -/
def strCont (c : Char) : Option (List Char × List Char) → Option (List Char × List Char)
  | some (t, rest) => some (c :: t, rest)
  | none => none

/-- The state of the string-body scanner: scanning ordinary characters, just
after a backslash, or inside the four hex digits of a `\u` escape (carrying
the digits read so far). -/
inductive EscMode where
  | normal
  | esc
  | hex0
  | hex1 (h1 : Char)
  | hex2 (h1 h2 : Char)
  | hex3 (h1 h2 h3 : Char)

/-- Scan the body of a string literal one character per step; returns the
unescaped content and the input after the closing quote.  Raw control
characters (below U+0020) are rejected, as strict JSON requires, and a
backslash must start one of the legal escape sequences. -/
def psbA : EscMode → List Char → Option (List Char × List Char)
  | _, [] => none
  | EscMode.normal, c :: r =>
    if c = '"' then some ([], r)
    else if c = '\\' then psbA EscMode.esc r
    else if c.toNat < 32 then none
    else strCont c (psbA EscMode.normal r)
  | EscMode.esc, c :: r =>
    if c = 'u' then psbA EscMode.hex0 r
    else
      match escMap c with
      | some d => strCont d (psbA EscMode.normal r)
      | none => none
  | EscMode.hex0, c :: r => if isHex c then psbA (EscMode.hex1 c) r else none
  | EscMode.hex1 h1, c :: r => if isHex c then psbA (EscMode.hex2 h1 c) r else none
  | EscMode.hex2 h1 h2, c :: r => if isHex c then psbA (EscMode.hex3 h1 h2 c) r else none
  | EscMode.hex3 h1 h2 h3, c :: r =>
    if isHex c then strCont (decodeHex h1 h2 h3 c) (psbA EscMode.normal r) else none

/-- Parse the body of a string literal after its opening quote. -/
def parseStringBody (s : List Char) : Option (List Char × List Char) :=
  psbA EscMode.normal s

/-- Parse an optional fraction part and an optional exponent part; a malformed
part is not consumed (leaving it in the remainder, where the caller's context
will reject it). -/
def parseFracExp (s : List Char) : List Char × List Char :=
  let fr :=
    match s with
    | '.' :: r =>
      match r.takeWhile jsonDigit with
      | [] => (([] : List Char), s)
      | ds => ('.' :: ds, r.dropWhile jsonDigit)
    | _ => ([], s)
  let ex :=
    match fr.2 with
    | e :: r =>
      if e = 'e' || e = 'E' then
        match r with
        | sgn :: r2 =>
          if sgn = '+' || sgn = '-' then
            match r2.takeWhile jsonDigit with
            | [] => (([] : List Char), fr.2)
            | ds => (e :: sgn :: ds, r2.dropWhile jsonDigit)
          else
            match r.takeWhile jsonDigit with
            | [] => ([], fr.2)
            | ds => (e :: ds, r.dropWhile jsonDigit)
        | [] => ([], fr.2)
      else ([], fr.2)
    | [] => ([], fr.2)
  (fr.1 ++ ex.1, ex.2)

/-- Parse the digits of a number after the optional minus sign: either a lone
zero or a nonzero digit followed by more digits, then fraction/exponent. -/
def parseNumAfterSign : List Char → Option (List Char × List Char)
  | [] => none
  | d :: r =>
    if d = '0' then
      match r with
      | d2 :: _ =>
        if jsonDigit d2 then none
        else some ('0' :: (parseFracExp r).1, (parseFracExp r).2)
      | [] => some (['0'], [])
    else if jsonDigit d then
      some (d :: (r.takeWhile jsonDigit ++ (parseFracExp (r.dropWhile jsonDigit)).1),
            (parseFracExp (r.dropWhile jsonDigit)).2)
    else none

/-- Parse a JSON number. -/
def parseNumber (s : List Char) : Option (Json × List Char) :=
  match s with
  | [] => none
  | c :: r =>
    if c = '-' then
      match parseNumAfterSign r with
      | some (lex, rest) => some (Json.num ('-' :: lex), rest)
      | none => none
    else
      match parseNumAfterSign s with
      | some (lex, rest) => some (Json.num lex, rest)
      | none => none

/-- Expect the given literal characters at the head of the input. -/
def expectChars : List Char → List Char → Option (List Char)
  | [], s => some s
  | _ :: _, [] => none
  | c :: cs, d :: s => if d = c then expectChars cs s else none

/-- The parser's mode: a value, the inside of an array after `[` or after an
element, or the inside of an object after `{` or after a member. -/
inductive PReq where
  | val
  | arrRest
  | arrTail
  | objRest
  | objTail

/-- Prepend a parsed element to the parse of the rest of an array. -/
def arrCont (v : Json) : Option (Json × List Char) → Option (Json × List Char)
  | some (Json.arr vs, r) => some (Json.arr (v :: vs), r)
  | _ => none

/-- Prepend a parsed member to the parse of the rest of an object. -/
def objCont (k : List Char) (v : Json) : Option (Json × List Char) → Option (Json × List Char)
  | some (Json.obj ms, r) => some (Json.obj ((k, v) :: ms), r)
  | _ => none

/-- Fuel-indexed recursive-descent parser for strict JSON.  In modes `arrRest`
and `arrTail` the result is a `Json.arr` of the remaining elements; in
`objRest` and `objTail` a `Json.obj` of the remaining members; the returned
list is the unconsumed input. -/
def parseF : Nat → PReq → List Char → Option (Json × List Char)
  | 0, _, _ => none
  | fuel + 1, PReq.val, s =>
    match skipWs s with
    | [] => none
    | c :: r =>
      if c = '{' then parseF fuel PReq.objRest r
      else if c = '[' then parseF fuel PReq.arrRest r
      else if c = '"' then
        match parseStringBody r with
        | some (t, rest) => some (Json.str t, rest)
        | none => none
      else if c = 't' then
        match expectChars ['r', 'u', 'e'] r with
        | some rest => some (Json.bool true, rest)
        | none => none
      else if c = 'f' then
        match expectChars ['a', 'l', 's', 'e'] r with
        | some rest => some (Json.bool false, rest)
        | none => none
      else if c = 'n' then
        match expectChars ['u', 'l', 'l'] r with
        | some rest => some (Json.null, rest)
        | none => none
      else parseNumber (c :: r)
  | fuel + 1, PReq.arrRest, s =>
    match skipWs s with
    | ']' :: r => some (Json.arr [], r)
    | s1 =>
      match parseF fuel PReq.val s1 with
      | some (v, r1) => arrCont v (parseF fuel PReq.arrTail r1)
      | none => none
  | fuel + 1, PReq.arrTail, s =>
    match skipWs s with
    | ']' :: r => some (Json.arr [], r)
    | ',' :: r =>
      match parseF fuel PReq.val r with
      | some (v, r1) => arrCont v (parseF fuel PReq.arrTail r1)
      | none => none
    | _ => none
  | fuel + 1, PReq.objRest, s =>
    match skipWs s with
    | '}' :: r => some (Json.obj [], r)
    | '"' :: r =>
      match parseStringBody r with
      | some (k, r1) =>
        (match skipWs r1 with
         | ':' :: r2 =>
           match parseF fuel PReq.val r2 with
           | some (v, r3) => objCont k v (parseF fuel PReq.objTail r3)
           | none => none
         | _ => none)
      | none => none
    | _ => none
  | fuel + 1, PReq.objTail, s =>
    match skipWs s with
    | '}' :: r => some (Json.obj [], r)
    | ',' :: r =>
      match skipWs r with
      | '"' :: r1 =>
        match parseStringBody r1 with
        | some (k, r2) =>
          (match skipWs r2 with
           | ':' :: r3 =>
             match parseF fuel PReq.val r3 with
             | some (v, r4) => objCont k v (parseF fuel PReq.objTail r4)
             | none => none
           | _ => none)
        | none => none
      | _ => none
    | _ => none

/-- Parse a whole document: one value, then only whitespace may remain. -/
def parseDoc (fuel : Nat) (s : List Char) : Option Json :=
  match parseF fuel PReq.val s with
  | some (j, rest) => if skipWs rest = [] then some j else none
  | none => none

/-- A byte stream is strict-JSON-valid iff some fuel parses it as a document. -/
def jsonValid (s : List Char) : Prop := ∃ fuel j, parseDoc fuel s = some j

/-! ## String-literal round trip lemmas -/

/-- A character that QuoteJSONString emits verbatim: not a quote, not a
backslash, not a control character. -/
def plainChar (c : Char) : Prop := c ≠ '"' ∧ c ≠ '\\' ∧ 32 ≤ c.toNat

instance (c : Char) : Decidable (plainChar c) :=
  inferInstanceAs (Decidable (c ≠ '"' ∧ c ≠ '\\' ∧ 32 ≤ c.toNat))

lemma psb_plain_step (c : Char) (h1 : ¬ c = '"') (h2 : ¬ c = '\\')
    (h3 : ¬ c.toNat < 32) (s : List Char) :
    parseStringBody (c :: s) = strCont c (parseStringBody s) := by
  show psbA EscMode.normal (c :: s) = strCont c (psbA EscMode.normal s)
  simp only [psbA, if_neg h1, if_neg h2, if_neg h3]

lemma psb_u_step (x3 x4 : Char) (h3 : isHex x3 = true) (h4 : isHex x4 = true)
    (s : List Char) :
    parseStringBody ('\\' :: 'u' :: '0' :: '0' :: x3 :: x4 :: s)
      = strCont (decodeHex '0' '0' x3 x4) (parseStringBody s) := by
  show psbA EscMode.normal ('\\' :: 'u' :: '0' :: '0' :: x3 :: x4 :: s)
      = strCont (decodeHex '0' '0' x3 x4) (psbA EscMode.normal s)
  have e0 : psbA EscMode.normal ('\\' :: 'u' :: '0' :: '0' :: x3 :: x4 :: s)
      = psbA (EscMode.hex2 '0' '0') (x3 :: x4 :: s) := rfl
  have e1 : psbA (EscMode.hex2 '0' '0') (x3 :: x4 :: s)
      = psbA (EscMode.hex3 '0' '0' x3) (x4 :: s) := by
    simp [psbA, h3]
  have e2 : psbA (EscMode.hex3 '0' '0' x3) (x4 :: s)
      = strCont (decodeHex '0' '0' x3 x4) (psbA EscMode.normal s) := by
    simp [psbA, h4]
  rw [e0, e1, e2]

lemma parseStringBody_plain_run (k : List Char) (hk : ∀ c ∈ k, plainChar c) :
    ∀ t, parseStringBody (k ++ '"' :: t) = some (k, t) := by
  induction k with
  | nil => intro t; rfl
  | cons c k ih =>
    intro t
    obtain ⟨h1, h2, h3⟩ := hk c (List.mem_cons_self c k)
    rw [List.cons_append, psb_plain_step c h1 h2 (by omega),
        ih (fun x hx => hk x (List.mem_cons_of_mem c hx)) t]
    rfl

lemma isHex_hexDig (n : Nat) (h : n < 16) : isHex (hexDig n) = true := by
  interval_cases n <;> rfl

lemma parseStringBody_escape (s : List Char) :
    ∀ t, ∃ u, parseStringBody (escape s ++ '"' :: t) = some (u, t) := by
  induction s with
  | nil => intro t; exact ⟨[], rfl⟩
  | cons c s ih =>
    intro t
    obtain ⟨u, hu⟩ := ih t
    by_cases h1 : c = '"'
    · subst h1
      exact ⟨'"' :: u, by
        rw [show parseStringBody (escape ('"' :: s) ++ '"' :: t)
              = strCont '"' (parseStringBody (escape s ++ '"' :: t)) from rfl, hu]; rfl⟩
    by_cases h2 : c = '\\'
    · subst h2
      exact ⟨'\\' :: u, by
        rw [show parseStringBody (escape ('\\' :: s) ++ '"' :: t)
              = strCont '\\' (parseStringBody (escape s ++ '"' :: t)) from rfl, hu]; rfl⟩
    by_cases h3 : c = Char.ofNat 8
    · subst h3
      exact ⟨Char.ofNat 8 :: u, by
        rw [show parseStringBody (escape (Char.ofNat 8 :: s) ++ '"' :: t)
              = strCont (Char.ofNat 8) (parseStringBody (escape s ++ '"' :: t)) from rfl, hu]; rfl⟩
    by_cases h4 : c = Char.ofNat 9
    · subst h4
      exact ⟨Char.ofNat 9 :: u, by
        rw [show parseStringBody (escape (Char.ofNat 9 :: s) ++ '"' :: t)
              = strCont (Char.ofNat 9) (parseStringBody (escape s ++ '"' :: t)) from rfl, hu]; rfl⟩
    by_cases h5 : c = Char.ofNat 10
    · subst h5
      exact ⟨Char.ofNat 10 :: u, by
        rw [show parseStringBody (escape (Char.ofNat 10 :: s) ++ '"' :: t)
              = strCont (Char.ofNat 10) (parseStringBody (escape s ++ '"' :: t)) from rfl, hu]; rfl⟩
    by_cases h6 : c = Char.ofNat 12
    · subst h6
      exact ⟨Char.ofNat 12 :: u, by
        rw [show parseStringBody (escape (Char.ofNat 12 :: s) ++ '"' :: t)
              = strCont (Char.ofNat 12) (parseStringBody (escape s ++ '"' :: t)) from rfl, hu]; rfl⟩
    by_cases h7 : c = Char.ofNat 13
    · subst h7
      exact ⟨Char.ofNat 13 :: u, by
        rw [show parseStringBody (escape (Char.ofNat 13 :: s) ++ '"' :: t)
              = strCont (Char.ofNat 13) (parseStringBody (escape s ++ '"' :: t)) from rfl, hu]; rfl⟩
    by_cases hctrl : c.toNat < 32
    · refine ⟨decodeHex '0' '0' (hexDig (c.toNat / 16)) (hexDig (c.toNat % 16)) :: u, ?_⟩
      have hesc : escChar c
          = ['\\', 'u', '0', '0', hexDig (c.toNat / 16), hexDig (c.toNat % 16)] := by
        simp only [escChar, if_neg h1, if_neg h2, if_neg h3, if_neg h4, if_neg h5,
          if_neg h6, if_neg h7, if_pos hctrl]
      have hflat : escape (c :: s) ++ '"' :: t
          = '\\' :: 'u' :: '0' :: '0' :: hexDig (c.toNat / 16) :: hexDig (c.toNat % 16)
              :: (escape s ++ '"' :: t) := by
        rw [show escape (c :: s) = escChar c ++ escape s from rfl, hesc]
        simp
      rw [hflat, psb_u_step _ _ (isHex_hexDig _ (by omega)) (isHex_hexDig _ (by omega)), hu]
      rfl
    · refine ⟨c :: u, ?_⟩
      have hesc : escChar c = [c] := by
        simp only [escChar, if_neg h1, if_neg h2, if_neg h3, if_neg h4, if_neg h5,
          if_neg h6, if_neg h7, if_neg hctrl]
      have hflat : escape (c :: s) ++ '"' :: t = c :: (escape s ++ '"' :: t) := by
        rw [show escape (c :: s) = escChar c ++ escape s from rfl, hesc]
        simp
      rw [hflat, psb_plain_step c h1 h2 hctrl, hu]
      rfl

/-! ## One-step unfolding lemmas for the parser -/

lemma parseF_val_newline (fuel : Nat) (s : List Char) :
    parseF fuel PReq.val ('\n' :: s) = parseF fuel PReq.val s := by
  cases fuel <;> rfl

lemma parseF_val_rbrack (fuel : Nat) (s : List Char) :
    parseF fuel PReq.val (']' :: s) = none := by
  cases fuel <;> rfl

lemma parseF_val_lbrace (fuel : Nat) (s : List Char) :
    parseF (fuel + 1) PReq.val ('{' :: s) = parseF fuel PReq.objRest s := rfl

lemma parseF_val_lbrack (fuel : Nat) (s : List Char) :
    parseF (fuel + 1) PReq.val ('[' :: s) = parseF fuel PReq.arrRest s := rfl

lemma parseF_val_quote (fuel : Nat) (s : List Char) :
    parseF (fuel + 1) PReq.val ('"' :: s)
      = (match parseStringBody s with
         | some (t, rest) => some (Json.str t, rest)
         | none => none) := rfl

lemma parseF_arrRest_newline (fuel : Nat) (s : List Char) :
    parseF fuel PReq.arrRest ('\n' :: s) = parseF fuel PReq.arrRest s := by
  cases fuel <;> rfl

lemma parseF_arrRest_rbrack (fuel : Nat) (s : List Char) :
    parseF (fuel + 1) PReq.arrRest (']' :: s) = some (Json.arr [], s) := rfl

lemma parseF_arrTail_rbrack (fuel : Nat) (s : List Char) :
    parseF (fuel + 1) PReq.arrTail (']' :: s) = some (Json.arr [], s) := rfl

lemma parseF_arrTail_comma (fuel : Nat) (s : List Char) :
    parseF (fuel + 1) PReq.arrTail (',' :: s)
      = (match parseF fuel PReq.val s with
         | some (v, r1) => arrCont v (parseF fuel PReq.arrTail r1)
         | none => none) := rfl

lemma parseF_objRest_quote (fuel : Nat) (s : List Char) :
    parseF (fuel + 1) PReq.objRest ('"' :: s)
      = (match parseStringBody s with
         | some (k, r1) =>
           (match skipWs r1 with
            | ':' :: r2 =>
              match parseF fuel PReq.val r2 with
              | some (v, r3) => objCont k v (parseF fuel PReq.objTail r3)
              | none => none
            | _ => none)
         | none => none) := rfl

lemma parseF_objTail_rbrace (fuel : Nat) (s : List Char) :
    parseF (fuel + 1) PReq.objTail ('}' :: s) = some (Json.obj [], s) := rfl

lemma parseF_objTail_comma_quote (fuel : Nat) (s : List Char) :
    parseF (fuel + 1) PReq.objTail (',' :: '"' :: s)
      = (match parseStringBody s with
         | some (k, r2) =>
           (match skipWs r2 with
            | ':' :: r3 =>
              match parseF fuel PReq.val r3 with
              | some (v, r4) => objCont k v (parseF fuel PReq.objTail r4)
              | none => none
            | _ => none)
         | none => none) := rfl

/-! ## Exact-consumption lemmas for serialized values -/

lemma parseF_arrRest_serStr (fuel : Nat) (l R : List Char) :
    parseF (fuel + 1) PReq.arrRest (serStr l ++ R)
      = (match parseF fuel PReq.val (serStr l ++ R) with
         | some (v, r1) => arrCont v (parseF fuel PReq.arrTail r1)
         | none => none) := rfl

lemma parseF_arrRest_serFounder (fuel : Nat) (f : Founder) (R : List Char) :
    parseF (fuel + 1) PReq.arrRest (serFounder f ++ R)
      = (match parseF fuel PReq.val (serFounder f ++ R) with
         | some (v, r1) => arrCont v (parseF fuel PReq.arrTail r1)
         | none => none) := rfl

lemma parseF_arrRest_serCompany (fuel : Nat) (c : Company) (R : List Char) :
    parseF (fuel + 1) PReq.arrRest (serCompany c ++ R)
      = (match parseF fuel PReq.val (serCompany c ++ R) with
         | some (v, r1) => arrCont v (parseF fuel PReq.arrTail r1)
         | none => none) := rfl

lemma parseF_arrRest_serCompany_some (fuel : Nat) (c : Company) (R : List Char)
    (j : Json) (r : List Char)
    (hval : parseF fuel PReq.val (serCompany c ++ R) = some (j, r)) :
    parseF (fuel + 1) PReq.arrRest (serCompany c ++ R)
      = arrCont j (parseF fuel PReq.arrTail r) := by
  rw [parseF_arrRest_serCompany, hval]

lemma parseF_arrRest_serCompany_none (fuel : Nat) (c : Company) (R : List Char)
    (hval : parseF fuel PReq.val (serCompany c ++ R) = none) :
    parseF (fuel + 1) PReq.arrRest (serCompany c ++ R) = none := by
  rw [parseF_arrRest_serCompany, hval]

lemma parseF_arrRest_serStr_some (fuel : Nat) (l R : List Char) (j : Json) (r : List Char)
    (hval : parseF fuel PReq.val (serStr l ++ R) = some (j, r)) :
    parseF (fuel + 1) PReq.arrRest (serStr l ++ R) = arrCont j (parseF fuel PReq.arrTail r) := by
  rw [parseF_arrRest_serStr, hval]

lemma parseF_arrRest_serStr_none (fuel : Nat) (l R : List Char)
    (hval : parseF fuel PReq.val (serStr l ++ R) = none) :
    parseF (fuel + 1) PReq.arrRest (serStr l ++ R) = none := by
  rw [parseF_arrRest_serStr, hval]

lemma parseF_arrRest_serFounder_some (fuel : Nat) (f : Founder) (R : List Char)
    (j : Json) (r : List Char)
    (hval : parseF fuel PReq.val (serFounder f ++ R) = some (j, r)) :
    parseF (fuel + 1) PReq.arrRest (serFounder f ++ R)
      = arrCont j (parseF fuel PReq.arrTail r) := by
  rw [parseF_arrRest_serFounder, hval]

lemma parseF_arrRest_serFounder_none (fuel : Nat) (f : Founder) (R : List Char)
    (hval : parseF fuel PReq.val (serFounder f ++ R) = none) :
    parseF (fuel + 1) PReq.arrRest (serFounder f ++ R) = none := by
  rw [parseF_arrRest_serFounder, hval]

lemma parseF_arrTail_step_some (fuel : Nat) (t : List Char) (j : Json) (r : List Char)
    (hval : parseF fuel PReq.val t = some (j, r)) :
    parseF (fuel + 1) PReq.arrTail (',' :: t) = arrCont j (parseF fuel PReq.arrTail r) := by
  rw [parseF_arrTail_comma, hval]

lemma parseF_arrTail_step_none (fuel : Nat) (t : List Char)
    (hval : parseF fuel PReq.val t = none) :
    parseF (fuel + 1) PReq.arrTail (',' :: t) = none := by
  rw [parseF_arrTail_comma, hval]

lemma parseF_objRest_member_some (fuel : Nat) (k : List Char) (hk : ∀ c ∈ k, plainChar c)
    (t : List Char) (j : Json) (r : List Char)
    (hval : parseF fuel PReq.val t = some (j, r)) :
    parseF (fuel + 1) PReq.objRest ('"' :: (k ++ '"' :: ':' :: t))
      = objCont k j (parseF fuel PReq.objTail r) := by
  rw [parseF_objRest_quote, parseStringBody_plain_run k hk]
  simp only [show skipWs (':' :: t) = ':' :: t from rfl, hval]

lemma parseF_objRest_member_none (fuel : Nat) (k : List Char) (hk : ∀ c ∈ k, plainChar c)
    (t : List Char) (hval : parseF fuel PReq.val t = none) :
    parseF (fuel + 1) PReq.objRest ('"' :: (k ++ '"' :: ':' :: t)) = none := by
  rw [parseF_objRest_quote, parseStringBody_plain_run k hk]
  simp only [show skipWs (':' :: t) = ':' :: t from rfl, hval]

lemma parseF_objTail_member_some (fuel : Nat) (k : List Char) (hk : ∀ c ∈ k, plainChar c)
    (t : List Char) (j : Json) (r : List Char)
    (hval : parseF fuel PReq.val t = some (j, r)) :
    parseF (fuel + 1) PReq.objTail (',' :: '"' :: (k ++ '"' :: ':' :: t))
      = objCont k j (parseF fuel PReq.objTail r) := by
  rw [parseF_objTail_comma_quote, parseStringBody_plain_run k hk]
  simp only [show skipWs (':' :: t) = ':' :: t from rfl, hval]

lemma parseF_objTail_member_none (fuel : Nat) (k : List Char) (hk : ∀ c ∈ k, plainChar c)
    (t : List Char) (hval : parseF fuel PReq.val t = none) :
    parseF (fuel + 1) PReq.objTail (',' :: '"' :: (k ++ '"' :: ':' :: t)) = none := by
  rw [parseF_objTail_comma_quote, parseStringBody_plain_run k hk]
  simp only [show skipWs (':' :: t) = ':' :: t from rfl, hval]

lemma arrTail_consumes (pres : List (List Char))
    (h : ∀ p ∈ pres, ∀ fuel rest, parseF fuel PReq.val (p ++ rest) = none
          ∨ ∃ j, parseF fuel PReq.val (p ++ rest) = some (j, rest)) :
    ∀ fuel rest,
      parseF fuel PReq.arrTail (flatAll (fun q => ',' :: q) pres ++ ']' :: rest) = none
      ∨ ∃ vs, parseF fuel PReq.arrTail (flatAll (fun q => ',' :: q) pres ++ ']' :: rest)
          = some (Json.arr vs, rest) := by
  induction pres with
  | nil =>
    intro fuel rest
    cases fuel with
    | zero => exact Or.inl rfl
    | succ fuel => exact Or.inr ⟨[], parseF_arrTail_rbrack fuel rest⟩
  | cons p pres ih =>
    intro fuel rest
    cases fuel with
    | zero => exact Or.inl rfl
    | succ fuel =>
      have hshape : flatAll (fun q => ',' :: q) (p :: pres) ++ ']' :: rest
          = ',' :: (p ++ (flatAll (fun q => ',' :: q) pres ++ ']' :: rest)) := by
        simp [flatAll]
      rw [hshape]
      rcases h p (List.mem_cons_self p pres) fuel
          (flatAll (fun q => ',' :: q) pres ++ ']' :: rest) with hc | ⟨j, hc⟩
      · exact Or.inl (parseF_arrTail_step_none fuel _ hc)
      · have e1 := parseF_arrTail_step_some fuel _ j _ hc
        rcases ih (fun q hq => h q (List.mem_cons_of_mem p hq)) fuel rest with ht | ⟨vs, ht⟩
        · exact Or.inl (by rw [e1, ht]; rfl)
        · exact Or.inr ⟨j :: vs, by rw [e1, ht]; rfl⟩

lemma serMembersTail_cons (m : List Char × List Char) (ms : List (List Char × List Char))
    (X : List Char) :
    serMembersTail (m :: ms) ++ X
      = ',' :: '"' :: (m.1 ++ '"' :: ':' :: (m.2 ++ (serMembersTail ms ++ X))) := by
  simp [serMembersTail, flatAll]

lemma objTail_consumes (ms : List (List Char × List Char))
    (h : ∀ m ∈ ms, (∀ c ∈ m.1, plainChar c)
          ∧ ∀ fuel rest, parseF fuel PReq.val (m.2 ++ rest) = none
              ∨ ∃ j, parseF fuel PReq.val (m.2 ++ rest) = some (j, rest)) :
    ∀ fuel rest,
      parseF fuel PReq.objTail (serMembersTail ms ++ '}' :: rest) = none
      ∨ ∃ ps, parseF fuel PReq.objTail (serMembersTail ms ++ '}' :: rest)
          = some (Json.obj ps, rest) := by
  induction ms with
  | nil =>
    intro fuel rest
    cases fuel with
    | zero => exact Or.inl rfl
    | succ fuel => exact Or.inr ⟨[], parseF_objTail_rbrace fuel rest⟩
  | cons m ms ih =>
    intro fuel rest
    cases fuel with
    | zero => exact Or.inl rfl
    | succ fuel =>
      obtain ⟨hkey, hval⟩ := h m (List.mem_cons_self m ms)
      rw [serMembersTail_cons]
      rcases hval fuel (serMembersTail ms ++ '}' :: rest) with hc | ⟨j, hc⟩
      · exact Or.inl (parseF_objTail_member_none fuel m.1 hkey _ hc)
      · have e1 := parseF_objTail_member_some fuel m.1 hkey _ j _ hc
        rcases ih (fun q hq => h q (List.mem_cons_of_mem m hq)) fuel rest with ht | ⟨ps, ht⟩
        · exact Or.inl (by rw [e1, ht]; rfl)
        · exact Or.inr ⟨(m.1, j) :: ps, by rw [e1, ht]; rfl⟩

lemma objRest_consumes (k : List Char) (hk : ∀ c ∈ k, plainChar c) (valPre : List Char)
    (hval : ∀ fuel rest, parseF fuel PReq.val (valPre ++ rest) = none
          ∨ ∃ j, parseF fuel PReq.val (valPre ++ rest) = some (j, rest))
    (ms : List (List Char × List Char))
    (hms : ∀ m ∈ ms, (∀ c ∈ m.1, plainChar c)
          ∧ ∀ fuel rest, parseF fuel PReq.val (m.2 ++ rest) = none
              ∨ ∃ j, parseF fuel PReq.val (m.2 ++ rest) = some (j, rest)) :
    ∀ fuel rest,
      parseF fuel PReq.objRest
          ('"' :: (k ++ '"' :: ':' :: (valPre ++ (serMembersTail ms ++ '}' :: rest)))) = none
      ∨ ∃ jv, parseF fuel PReq.objRest
          ('"' :: (k ++ '"' :: ':' :: (valPre ++ (serMembersTail ms ++ '}' :: rest))))
          = some (jv, rest) := by
  intro fuel rest
  cases fuel with
  | zero => exact Or.inl rfl
  | succ fuel =>
    rcases hval fuel (serMembersTail ms ++ '}' :: rest) with hc | ⟨j, hc⟩
    · exact Or.inl (parseF_objRest_member_none fuel k hk _ hc)
    · have e1 := parseF_objRest_member_some fuel k hk _ j _ hc
      rcases objTail_consumes ms hms fuel rest with ht | ⟨ps, ht⟩
      · exact Or.inl (by rw [e1, ht]; rfl)
      · exact Or.inr ⟨Json.obj ((k, j) :: ps), by rw [e1, ht]; rfl⟩

lemma consumesV_serStr (l : List Char) :
    ∀ fuel rest, parseF fuel PReq.val (serStr l ++ rest) = none
      ∨ ∃ j, parseF fuel PReq.val (serStr l ++ rest) = some (j, rest) := by
  intro fuel rest
  cases fuel with
  | zero => exact Or.inl rfl
  | succ fuel =>
    obtain ⟨u, hu⟩ := parseStringBody_escape l rest
    refine Or.inr ⟨Json.str u, ?_⟩
    have hshape : serStr l ++ rest = '"' :: (escape l ++ '"' :: rest) := by
      simp [serStr]
    rw [hshape, parseF_val_quote, hu]

lemma serLinks_nil_shape (rest : List Char) : serLinks [] ++ rest = '[' :: ']' :: rest := by
  simp [serLinks, arrBody]

lemma serLinks_cons_shape (l : String) (ls : List String) (rest : List Char) :
    serLinks (l :: ls) ++ rest
      = '[' :: (serStr l.data
          ++ (flatAll (fun q => ',' :: q) (ls.map fun x => serStr x.data) ++ ']' :: rest)) := by
  simp [serLinks, arrBody, flatAll]

lemma consumesV_serLinks (ls : List String) :
    ∀ fuel rest, parseF fuel PReq.val (serLinks ls ++ rest) = none
      ∨ ∃ j, parseF fuel PReq.val (serLinks ls ++ rest) = some (j, rest) := by
  intro fuel rest
  cases fuel with
  | zero => exact Or.inl rfl
  | succ fuel =>
    cases ls with
    | nil =>
      rw [serLinks_nil_shape, parseF_val_lbrack]
      cases fuel with
      | zero => exact Or.inl rfl
      | succ fuel => exact Or.inr ⟨Json.arr [], parseF_arrRest_rbrack fuel rest⟩
    | cons l ls =>
      rw [serLinks_cons_shape, parseF_val_lbrack]
      cases fuel with
      | zero => exact Or.inl rfl
      | succ fuel =>
        rcases consumesV_serStr l.data fuel
            (flatAll (fun q => ',' :: q) (ls.map fun x => serStr x.data) ++ ']' :: rest)
          with hc | ⟨j, hc⟩
        · exact Or.inl (parseF_arrRest_serStr_none fuel l.data _ hc)
        · have e1 := parseF_arrRest_serStr_some fuel l.data _ j _ hc
          rcases arrTail_consumes (ls.map fun x => serStr x.data)
              (fun p hp => by
                rcases List.mem_map.1 hp with ⟨x, _, rfl⟩
                exact consumesV_serStr x.data) fuel rest with ht | ⟨vs, ht⟩
          · exact Or.inl (by rw [e1, ht]; rfl)
          · exact Or.inr ⟨Json.arr (j :: vs), by rw [e1, ht]; rfl⟩

lemma serFounder_shape (f : Founder) (rest : List Char) :
    serFounder f ++ rest
      = '{' :: '"' :: (['n', 'a', 'm', 'e'] ++ '"' :: ':' :: (serStr f.name.data ++
          (serMembersTail [(['l', 'i', 'n', 'k', 's'], serLinks f.links)] ++ '}' :: rest))) := by
  simp [serFounder, serKey]

lemma consumesV_serFounder (f : Founder) :
    ∀ fuel rest, parseF fuel PReq.val (serFounder f ++ rest) = none
      ∨ ∃ j, parseF fuel PReq.val (serFounder f ++ rest) = some (j, rest) := by
  intro fuel rest
  cases fuel with
  | zero => exact Or.inl rfl
  | succ fuel =>
    rw [serFounder_shape, parseF_val_lbrace]
    refine objRest_consumes ['n', 'a', 'm', 'e'] (by decide) (serStr f.name.data)
      (consumesV_serStr f.name.data)
      [(['l', 'i', 'n', 'k', 's'], serLinks f.links)] ?_ fuel rest
    intro m hm
    rw [List.mem_singleton.1 hm]
    exact ⟨(by decide : ∀ c ∈ ['l', 'i', 'n', 'k', 's'], plainChar c),
      consumesV_serLinks f.links⟩

lemma serFounders_nil_shape (rest : List Char) :
    serFounders [] ++ rest = '[' :: ']' :: rest := by
  simp [serFounders, arrBody]

lemma serFounders_cons_shape (f : Founder) (fs : List Founder) (rest : List Char) :
    serFounders (f :: fs) ++ rest
      = '[' :: (serFounder f
          ++ (flatAll (fun q => ',' :: q) (fs.map serFounder) ++ ']' :: rest)) := by
  simp [serFounders, arrBody, flatAll]

lemma consumesV_serFounders (fs : List Founder) :
    ∀ fuel rest, parseF fuel PReq.val (serFounders fs ++ rest) = none
      ∨ ∃ j, parseF fuel PReq.val (serFounders fs ++ rest) = some (j, rest) := by
  intro fuel rest
  cases fuel with
  | zero => exact Or.inl rfl
  | succ fuel =>
    cases fs with
    | nil =>
      rw [serFounders_nil_shape, parseF_val_lbrack]
      cases fuel with
      | zero => exact Or.inl rfl
      | succ fuel => exact Or.inr ⟨Json.arr [], parseF_arrRest_rbrack fuel rest⟩
    | cons f fs =>
      rw [serFounders_cons_shape, parseF_val_lbrack]
      cases fuel with
      | zero => exact Or.inl rfl
      | succ fuel =>
        rcases consumesV_serFounder f fuel
            (flatAll (fun q => ',' :: q) (fs.map serFounder) ++ ']' :: rest)
          with hc | ⟨j, hc⟩
        · exact Or.inl (parseF_arrRest_serFounder_none fuel f _ hc)
        · have e1 := parseF_arrRest_serFounder_some fuel f _ j _ hc
          rcases arrTail_consumes (fs.map serFounder)
              (fun p hp => by
                rcases List.mem_map.1 hp with ⟨x, _, rfl⟩
                exact consumesV_serFounder x) fuel rest with ht | ⟨vs, ht⟩
          · exact Or.inl (by rw [e1, ht]; rfl)
          · exact Or.inr ⟨Json.arr (j :: vs), by rw [e1, ht]; rfl⟩

lemma serCompany_shape (c : Company) (rest : List Char) :
    serCompany c ++ rest
      = '{' :: '"' :: (['n', 'a', 'm', 'e'] ++ '"' :: ':' :: (serStr c.name.data ++
          (serMembersTail
            [(['l', 'o', 'c', 'a', 't', 'i', 'o', 'n'], serStr c.location.data),
             (['l', 'i', 'n', 'k'], serStr c.link.data),
             (['f', 'o', 'u', 'n', 'd', 'e', 'r', 's'], serFounders c.founders)]
            ++ '}' :: rest))) := by
  simp [serCompany, serKey]

lemma consumesV_serCompany (c : Company) :
    ∀ fuel rest, parseF fuel PReq.val (serCompany c ++ rest) = none
      ∨ ∃ j, parseF fuel PReq.val (serCompany c ++ rest) = some (j, rest) := by
  intro fuel rest
  cases fuel with
  | zero => exact Or.inl rfl
  | succ fuel =>
    rw [serCompany_shape, parseF_val_lbrace]
    refine objRest_consumes ['n', 'a', 'm', 'e'] (by decide) (serStr c.name.data)
      (consumesV_serStr c.name.data)
      [(['l', 'o', 'c', 'a', 't', 'i', 'o', 'n'], serStr c.location.data),
       (['l', 'i', 'n', 'k'], serStr c.link.data),
       (['f', 'o', 'u', 'n', 'd', 'e', 'r', 's'], serFounders c.founders)] ?_ fuel rest
    intro m hm
    rcases List.mem_cons.1 hm with h | hm
    · rw [h]
      exact ⟨(by decide : ∀ x ∈ ['l', 'o', 'c', 'a', 't', 'i', 'o', 'n'], plainChar x),
        consumesV_serStr c.location.data⟩
    rcases List.mem_cons.1 hm with h | hm
    · rw [h]
      exact ⟨(by decide : ∀ x ∈ ['l', 'i', 'n', 'k'], plainChar x),
        consumesV_serStr c.link.data⟩
    · rw [List.mem_singleton.1 hm]
      exact ⟨(by decide : ∀ x ∈ ['f', 'o', 'u', 'n', 'd', 'e', 'r', 's'], plainChar x),
        consumesV_serFounders c.founders⟩

/-! ## The trailing comma makes the stream unparseable -/

lemma flatAll_company_cons (c : Company) (cs : List Company) (rest : List Char) :
    flatAll (fun x => serCompany x ++ [',', '\n']) (c :: cs) ++ ']' :: rest
      = serCompany c
          ++ (',' :: '\n' :: (flatAll (fun x => serCompany x ++ [',', '\n']) cs ++ ']' :: rest)) := by
  simp [flatAll]

lemma arrTail_trailing (cs : List Company) :
    ∀ fuel rest, parseF fuel PReq.arrTail
        (',' :: '\n' :: (flatAll (fun x => serCompany x ++ [',', '\n']) cs ++ ']' :: rest))
      = none := by
  induction cs with
  | nil =>
    intro fuel rest
    cases fuel with
    | zero => rfl
    | succ fuel =>
      rw [parseF_arrTail_comma, parseF_val_newline,
        show flatAll (fun x => serCompany x ++ [',', '\n']) ([] : List Company) ++ ']' :: rest
          = ']' :: rest from rfl,
        parseF_val_rbrack]
  | cons c cs ih =>
    intro fuel rest
    cases fuel with
    | zero => rfl
    | succ fuel =>
      rw [flatAll_company_cons]
      rcases consumesV_serCompany c fuel
          (',' :: '\n' :: (flatAll (fun x => serCompany x ++ [',', '\n']) cs ++ ']' :: rest))
        with hc | ⟨j, hc⟩
      · rw [parseF_arrTail_comma, parseF_val_newline, hc]
      · rw [parseF_arrTail_comma, parseF_val_newline, hc]
        show arrCont j (parseF fuel PReq.arrTail
          (',' :: '\n' :: (flatAll (fun x => serCompany x ++ [',', '\n']) cs ++ ']' :: rest))) = none
        rw [ih fuel rest]
        rfl

/-! ## The output stream and strict JSON -/

lemma writesLoop_eq (fetch : String → Option (List Founder)) :
    ∀ cs, writesLoop fetch cs
      = flatAll (fun c => serCompany c ++ [',', '\n']) (enrichOutputs fetch cs) := by
  intro cs
  induction cs with
  | nil => rfl
  | cons c rest ih =>
    cases h : fetch c.link <;> simp [writesLoop, enrichOutputs, h, ih, flatAll]

lemma outputChars_parse_none (fetch : String → Option (List Founder)) (cs : List Company)
    (h : enrichOutputs fetch cs ≠ []) :
    ∀ fuel, parseF fuel PReq.val (outputChars fetch cs) = none := by
  intro fuel
  obtain ⟨w, ws, hws⟩ : ∃ w ws, enrichOutputs fetch cs = w :: ws := by
    cases hE : enrichOutputs fetch cs with
    | nil => exact absurd hE h
    | cons w ws => exact ⟨w, ws, rfl⟩
  have hstream : outputChars fetch cs
      = '[' :: '\n' :: (serCompany w
          ++ (',' :: '\n' :: (flatAll (fun x => serCompany x ++ [',', '\n']) ws ++ ']' :: []))) := by
    rw [outputChars, writesLoop_eq, hws]
    simp [flatAll]
  rw [hstream]
  cases fuel with
  | zero => rfl
  | succ fuel =>
    rw [parseF_val_lbrack, parseF_arrRest_newline]
    cases fuel with
    | zero => rfl
    | succ fuel =>
      rcases consumesV_serCompany w fuel
          (',' :: '\n' :: (flatAll (fun x => serCompany x ++ [',', '\n']) ws ++ ']' :: []))
        with hc | ⟨j, hc⟩
      · exact parseF_arrRest_serCompany_none fuel w _ hc
      · have e1 := parseF_arrRest_serCompany_some fuel w _ j _ hc
        rw [e1, arrTail_trailing ws fuel []]
        rfl

lemma outputChars_invalid (fetch : String → Option (List Founder)) (cs : List Company)
    (h : enrichOutputs fetch cs ≠ []) : ¬ jsonValid (outputChars fetch cs) := by
  rintro ⟨fuel, j, hdoc⟩
  unfold parseDoc at hdoc
  rw [outputChars_parse_none fetch cs h fuel] at hdoc
  exact Option.noConfusion hdoc

lemma outputChars_valid_empty (fetch : String → Option (List Founder)) (cs : List Company)
    (h : enrichOutputs fetch cs = []) : jsonValid (outputChars fetch cs) := by
  have hstream : outputChars fetch cs = ['[', '\n', ']'] := by
    rw [outputChars, writesLoop_eq, h]
    rfl
  rw [hstream]
  exact ⟨2, Json.arr [], rfl⟩

/-- Claim C9: the output file's byte stream is exactly `[` and a newline, then
for each successfully enriched record (in collector-insertion order) its JSON
serialization followed by `,` and a newline, then a final `]` with no
trailing-comma correction — hence the stream is strict-JSON-invalid whenever at
least one record was written, and valid (an empty array) when none was. -/
theorem C9_output_stream :
    (∀ (fetch : String → Option (List Founder)) (cs : List Company),
        outputChars fetch cs
          = '[' :: '\n'
              :: (flatAll (fun c => serCompany c ++ [',', '\n']) (enrichOutputs fetch cs)
                  ++ [']']))
    ∧ (∀ (fetch : String → Option (List Founder)) (cs : List Company),
        enrichOutputs fetch cs = [] → jsonValid (outputChars fetch cs))
    ∧ (∀ (fetch : String → Option (List Founder)) (cs : List Company),
        enrichOutputs fetch cs ≠ [] → ¬ jsonValid (outputChars fetch cs)) := by
  refine ⟨?_, outputChars_valid_empty, outputChars_invalid⟩
  intro fetch cs
  rw [outputChars, writesLoop_eq]

/-- A fetch behavior that always fails (yields `absent`). -/
def exampleFetchNone : String → Option (List Founder) := fun _ => none

/-- A fetch behavior that always yields one founder. -/
def exampleFetchSome : String → Option (List Founder) :=
  fun _ => some [⟨"Jo", ["https://x.com/jo"]⟩]

theorem C9_output_stream_witness :
    jsonValid (outputChars exampleFetchNone [exampleCompanyA])
    ∧ ¬ jsonValid (outputChars exampleFetchSome [exampleCompanyA]) :=
  ⟨C9_output_stream.2.1 exampleFetchNone [exampleCompanyA] rfl,
   C9_output_stream.2.2 exampleFetchSome [exampleCompanyA] (by decide)⟩
